import Mathlib

/-!
Verification of the binned distribution core (gluonts/distribution/binned.py).

The MXNet tensors are modelled over the real numbers.  The bin axis (the last
tensor axis) is a `List ℝ`; every public operation of the `Binned` class acts
independently on each batch element, so the density, cdf and moment methods are
embedded per batch element.  The `quantile` method genuinely mixes the batch
and level axes (swapaxes, a foreach scan over bins, a gather), so it is
embedded on rank-2 tensors, `List (List ℝ)` with shape (batch, num_bins),
exactly following the source operations.
-/

noncomputable section

namespace Binned

/-- Translation of Binned._compute_edges: concatenation of a low sentinel
(zeros_like of the first column minus 1e10), the midpoints of consecutive
centers, and a high sentinel (zeros_like of the first column plus 1e10). -/
def compute_edges (bin_centers : List ℝ) : List ℝ :=
  let low := (bin_centers.take 1).map (fun _ => (0 : ℝ) - 1.0e10)
  let high := (bin_centers.take 1).map (fun _ => (0 : ℝ) + 1.0e10)
  let means := List.zipWith (fun a b => (a + b) / 2)
    (bin_centers.drop 1) bin_centers.dropLast
  low ++ means ++ high

/-- Translation of the bin_probs accessor value: exp of the log probabilities. -/
def bin_probs (bin_log_probs : List ℝ) : List ℝ :=
  bin_log_probs.map Real.exp

/-- Translation of Binned.mean: (bin_probs * bin_centers).sum(axis=-1). -/
def mean (bin_log_probs bin_centers : List ℝ) : ℝ :=
  (List.zipWith (· * ·) (bin_probs bin_log_probs) bin_centers).sum

/-- Translation of Binned.stddev:
sqrt((bin_probs * bin_centers.square()).sum(axis=-1) - mean.square()). -/
def stddev (bin_log_probs bin_centers : List ℝ) : ℝ :=
  Real.sqrt
    ((List.zipWith (· * ·) (bin_probs bin_log_probs)
        (bin_centers.map (fun c => c ^ 2))).sum -
      (mean bin_log_probs bin_centers) ^ 2)

/-- Translation of Binned.log_prob: mask the unique bin whose half-open edge
interval (left edges are the edges without the last one, right edges the edges
without the first one) contains x, multiply the mask by bin_log_probs and
reduce-sum over the bin axis. -/
def log_prob (bin_log_probs bin_centers : List ℝ) (x : ℝ) : ℝ :=
  (List.zipWith (· * ·) bin_log_probs
    (List.zipWith
      (fun l r => (if l ≤ x then (1 : ℝ) else 0) * (if x < r then (1 : ℝ) else 0))
      (compute_edges bin_centers).dropLast
      ((compute_edges bin_centers).drop 1))).sum

/-- Translation of Binned.cdf: multiply bin_probs with the mask of bins whose
center is ≤ x and reduce-sum over the bin axis. -/
def cdf (bin_log_probs bin_centers : List ℝ) (x : ℝ) : ℝ :=
  (List.zipWith (· * ·) (bin_probs bin_log_probs)
    (bin_centers.map (fun c => if c ≤ x then (1 : ℝ) else 0))).sum

/-- Modelled from the spec: the cdf described as the sum of bin_probs over
exactly those bins whose center is ≤ x (refinement target for the code's
mask-multiply-sum implementation). -/
def cdf_spec (bin_log_probs bin_centers : List ℝ) (x : ℝ) : ℝ :=
  (((bin_centers.zip (bin_probs bin_log_probs)).filter
      (fun q => decide (q.1 ≤ x))).map Prod.snd).sum

/-! Quantile inversion.  The source method works on rank-2 tensors of shape
(batch, num_bins): it transposes bin_probs to (num_bins, batch), runs a
foreach scan over the bin axis carrying a running cdf and a running index per
(batch, level) pair, and gathers bin_centers at the final indices with pick
(whose default mxnet mode clips out-of-range indices to the last bin). -/
/-- swapaxes(0, 1) on a rank-2 tensor given as a list of rows. -/
def swapaxes01 (m : List (List ℝ)) : List (List ℝ) :=
  match m with
  | [] => []
  | r :: _ => (List.range r.length).map fun j => m.map fun row => row.getD j 0

/-- mxnet pick along the last axis in its default clip mode. -/
def pick (cs : List ℝ) (i : ℕ) : ℝ :=
  cs.getD (min i (cs.length - 1)) 0

/-- The action of the scan step of Binned.quantile on one (batch, level) cell:
add the bin's probability to the running cdf and freeze the index once the cdf
strictly exceeds the level. -/
def step_cell (lv : ℝ) (s : ℝ × ℕ) (p : ℝ) : ℝ × ℕ :=
  (s.1 + p, if s.1 + p > lv then s.2 else s.2 + 1)

/-- Translation of the step closure of Binned.quantile: p holds one bin's
probabilities across the batch; cdf and idx have shape (batch, num_levels).
cdf = broadcast_add(cdf, p.expand_dims(1));
idx = where(broadcast_greater(cdf, level), idx, idx + 1). -/
def step (level : List ℝ) (st : List (List ℝ) × List (List ℕ)) (p : List ℝ) :
    List (List ℝ) × List (List ℕ) :=
  (List.zipWith (fun crow pb => crow.map (fun c => c + pb)) st.1 p,
   List.zipWith
     (fun crow irow =>
       List.zipWith (fun cl i0 => if cl.1 > cl.2 then i0 else i0 + 1)
         (crow.zip level) irow)
     (List.zipWith (fun crow pb => crow.map (fun c => c + pb)) st.1 p) st.2)

/-- The foreach scan of Binned.quantile: transpose bin_probs to put the bin
axis first, build the zero cdf/idx state of shape (batch, num_levels), and
fold the step over the bins. -/
def quantile_scan (probs : List (List ℝ)) (level : List ℝ) :
    List (List ℝ) × List (List ℕ) :=
  ((swapaxes01 probs).foldl (step level)
    (((swapaxes01 probs).headD []).map (fun _ => level.map fun _ => (0 : ℝ)),
     ((swapaxes01 probs).headD []).map (fun _ => level.map fun _ => (0 : ℕ))))

/-- Translation of Binned.quantile on a rank-1 batch: run the scan on
bin_probs, gather bin_centers at the final indices (mxnet pick, clip mode),
and swap the batch and level axes of the result. -/
def quantile (bin_log_probs bin_centers : List (List ℝ)) (level : List ℝ) :
    List (List ℝ) :=
  swapaxes01
    (List.zipWith (fun cs irow => irow.map (fun i => pick cs i))
      bin_centers (quantile_scan (bin_log_probs.map bin_probs) level).2)

/-- Number of scan steps at which the running cdf (started at c) has not yet
strictly exceeded lv; this is the value the scan's idx accumulates. -/
def count_le (lv : ℝ) : ℝ → List ℝ → ℕ
  | _, [] => 0
  | c, p :: ps => (if c + p > lv then 0 else 1) + count_le lv (c + p) ps

/-- Shape predicate for rank-2 tensors given as lists of rows. -/
def IsMat (m : List (List α)) (r c : ℕ) : Prop :=
  m.length = r ∧ ∀ i, i < r → (m.getD i []).length = c

/-- j is the first bin index whose running cumulative probability strictly
exceeds lv. -/
def first_cross (ps : List ℝ) (lv : ℝ) (j : ℕ) : Prop :=
  lv < (ps.take (j + 1)).sum ∧ ∀ k, k < j → (ps.take (k + 1)).sum ≤ lv

/-- Log probabilities of the running example: exp recovers [0.2, 0.3, 0.5]. -/
def example_log_probs : List ℝ :=
  [Real.log (1 / 5), Real.log (3 / 10), Real.log (1 / 2)]

/-- Modelled from the spec: C2's selection rule, the index of the first bin
whose cumulative mass meets or exceeds the level. -/
def first_ge (lv : ℝ) : ℝ → List ℝ → ℕ
  | _, [] => 0
  | c, p :: ps => if lv ≤ c + p then 0 else first_ge lv (c + p) ps + 1

/-- Modelled from the spec: the bin center whose cumulative probability mass
first meets or exceeds the level (the value C2 claims quantile returns). -/
def quantile_meets_spec (probs cs : List ℝ) (lv : ℝ) : ℝ :=
  cs.getD (first_ge lv 0 probs) 0

/-- Mutable state of a Binned instance: the constructor fields and the
lazily-memoized _bin_probs cache (None until the first access). -/
structure State where
  bin_log_probs : List ℝ
  bin_centers : List ℝ
  cached_bin_probs : Option (List ℝ)

/-- Translation of Binned.__init__: stores the tensors and sets the
_bin_probs cache to None. -/
def State.init (bin_log_probs bin_centers : List ℝ) : State :=
  ⟨bin_log_probs, bin_centers, none⟩

/-- Translation of the bin_probs property: if the cache is empty, compute
exp(bin_log_probs), store it, and return it; otherwise return the cache. -/
def State.bin_probs_access (s : State) : List ℝ × State :=
  match s.cached_bin_probs with
  | none =>
    (s.bin_log_probs.map Real.exp,
     { s with cached_bin_probs := some (s.bin_log_probs.map Real.exp) })
  | some v => (v, s)

end Binned

namespace BinnedOutput

/-- The centers tensor produced by BinnedArgs.hybrid_forward:
broadcast_add of the stored rank-1 centers with zeros shaped like the
projection output, i.e. each batch row holds center + 0 entrywise. -/
def args_centers (bin_centers : List ℝ) (ps : List (List ℝ)) : List (List ℝ) :=
  ps.map (fun row => List.zipWith (fun c z => c + z) bin_centers (row.map fun _ => (0 : ℝ)))

/-- The scale branch of BinnedOutput.distribution:
broadcast_mul(bin_centers, scale.expand_dims(-1)) when scale is given. -/
def scale_centers (scale : Option (List ℝ)) (bc : List (List ℝ)) : List (List ℝ) :=
  match scale with
  | none => bc
  | some s => List.zipWith (fun crow s0 => crow.map (fun c => c * s0)) bc s

/-- The loc branch of BinnedOutput.distribution:
broadcast_add(bin_centers, loc.expand_dims(-1)) when loc is given. -/
def loc_centers (loc : Option (List ℝ)) (bc : List (List ℝ)) : List (List ℝ) :=
  match loc with
  | none => bc
  | some lb => List.zipWith (fun crow l0 => crow.map (fun c => c + l0)) bc lb

/-- Translation of BinnedOutput.distribution: re-broadcast the centers against
ones_like(probs), apply scale then loc, and hand (probs, centers) to the
Binned constructor. -/
def distribution (args : List (List ℝ) × List (List ℝ))
    (loc scale : Option (List ℝ)) : List (List ℝ) × List (List ℝ) :=
  (args.1,
   loc_centers loc (scale_centers scale
     (List.zipWith
       (fun crow prow => List.zipWith (· * ·) crow (prow.map fun _ => (1 : ℝ)))
       args.2 args.1)))

end BinnedOutput

namespace ListAux

/-- getD of a map, when the index is in bounds. -/
theorem getD_map (f : α → β) (l : List α) (d : β) (d' : α) :
    ∀ i, i < l.length → (l.map f).getD i d = f (l.getD i d')
  | i, hi => by
    induction l generalizing i with
    | nil => simp at hi
    | cons a t ih =>
      cases i with
      | zero => simp [List.getD]
      | succ j =>
        simp only [List.map_cons, List.getD_cons_succ]
        exact ih j (by simpa using Nat.lt_of_succ_lt_succ hi)

/-- getD of a zipWith, when the index is in bounds on both sides. -/
theorem getD_zipWith (f : α → β → γ) (as : List α) (bs : List β)
    (d : γ) (da : α) (db : β) :
    ∀ i, i < as.length → i < bs.length →
      (List.zipWith f as bs).getD i d = f (as.getD i da) (bs.getD i db)
  | i, ha, hb => by
    induction as generalizing bs i with
    | nil => simp at ha
    | cons a t ih =>
      cases bs with
      | nil => simp at hb
      | cons b u =>
        cases i with
        | zero => simp [List.getD]
        | succ j =>
          simp only [List.zipWith_cons_cons, List.getD_cons_succ]
          exact ih u j (by simpa using Nat.lt_of_succ_lt_succ ha)
            (by simpa using Nat.lt_of_succ_lt_succ hb)

/-- getD of a zip, when the index is in bounds on both sides. -/
theorem getD_zip (as : List α) (bs : List β) (d : α × β) (da : α) (db : β) :
    ∀ i, i < as.length → i < bs.length →
      (as.zip bs).getD i d = (as.getD i da, bs.getD i db)
  | i, ha, hb => by
    rw [List.zip, getD_zipWith Prod.mk as bs d da db i ha hb]

/-- getD of range. -/
theorem getD_range (n : ℕ) (d : ℕ) : ∀ j, j < n → (List.range n).getD j d = j
  | j, hj => by
    rw [List.getD_eq_getElem _ _ (by simpa using hj)]
    simp

/-- Reading every position of a list with getD rebuilds the list. -/
theorem map_getD_range (l : List α) (d : α) :
    (List.range l.length).map (fun j => l.getD j d) = l := by
  induction l with
  | nil => simp
  | cons a t ih =>
    rw [List.length_cons, List.range_succ_eq_map, List.map_cons, List.map_map]
    have h1 : ((fun j => (a :: t).getD j d) ∘ Nat.succ) = fun j => t.getD j d := by
      funext j
      simp [List.getD_cons_succ]
    have h2 : (a :: t).getD 0 d = a := by simp [List.getD_cons_zero]
    rw [h1, h2, ih]

/-- A list equals the map of its entries over the index range. -/
theorem eq_range_map {l : List α} {n : ℕ} (hn : l.length = n) (d : α) :
    l = (List.range n).map (fun j => l.getD j d) := by
  subst hn; exact (map_getD_range l d).symm

/-- getD of an append, inside the left part. -/
theorem getD_append_left (xs ys : List α) (d : α) :
    ∀ i, i < xs.length → (xs ++ ys).getD i d = xs.getD i d
  | i, hi => by
    induction xs generalizing i with
    | nil => simp at hi
    | cons a t ih =>
      cases i with
      | zero => simp [List.getD_cons_zero]
      | succ j =>
        simp only [List.cons_append, List.getD_cons_succ]
        exact ih j (by simpa using Nat.lt_of_succ_lt_succ hi)

/-- getD of an append, at the start of the right part. -/
theorem getD_append_right (xs ys : List α) (d : α) :
    ∀ i, (xs ++ ys).getD (xs.length + i) d = ys.getD i d
  | i => by
    induction xs with
    | nil => simp
    | cons a t ih =>
      simpa [Nat.succ_add, List.getD_cons_succ] using ih

/-- getD after dropping one element. -/
theorem getD_drop_one (l : List α) (d : α) :
    ∀ i, (l.drop 1).getD i d = l.getD (i + 1) d
  | i => by
    cases l with
    | nil => simp [List.getD]
    | cons a t => simp [List.getD_cons_succ]

/-- getD of dropLast, when the index is in bounds. -/
theorem getD_dropLast (l : List α) (d : α) :
    ∀ i, i < l.dropLast.length → l.dropLast.getD i d = l.getD i d
  | i, hi => by
    rw [List.getD_eq_getElem _ _ hi,
      List.getD_eq_getElem _ _ (Nat.lt_of_lt_of_le hi (by simp [List.length_dropLast]))]
    exact List.getElem_dropLast l i hi

/-- Pairwise (≤) gives getD-monotonicity. -/
theorem pairwise_le_getD {cs : List ℝ} (h : List.Pairwise (· ≤ ·) cs)
    {i j : ℕ} (hij : i ≤ j) (hj : j < cs.length) :
    cs.getD i 0 ≤ cs.getD j 0 := by
  rcases Nat.lt_or_ge i j with hlt | hge
  · have hi : i < cs.length := Nat.lt_trans hlt hj
    rw [List.getD_eq_getElem _ _ hi, List.getD_eq_getElem _ _ hj]
    exact List.pairwise_iff_get.mp h ⟨i, hi⟩ ⟨j, hj⟩ hlt
  · have : i = j := Nat.le_antisymm hij hge
    subst this
    exact le_refl _

end ListAux

namespace Binned

theorem compute_edges_cons (c : ℝ) (t : List ℝ) :
    compute_edges (c :: t) =
      ((0 : ℝ) - 1.0e10) ::
        (List.zipWith (fun a b => (a + b) / 2) t ((c :: t).dropLast) ++
          [(0 : ℝ) + 1.0e10]) := by
  simp [compute_edges]

theorem compute_edges_length (cs : List ℝ) (h : 1 ≤ cs.length) :
    (compute_edges cs).length = cs.length + 1 := by
  cases cs with
  | nil => simp at h
  | cons c t =>
    rw [compute_edges_cons]
    simp [List.length_zipWith]

theorem compute_edges_getD_zero (cs : List ℝ) (h : 1 ≤ cs.length) :
    (compute_edges cs).getD 0 0 = -1.0e10 := by
  cases cs with
  | nil => simp at h
  | cons c t =>
    rw [compute_edges_cons]
    norm_num

theorem compute_edges_getD_last (cs : List ℝ) (h : 1 ≤ cs.length) :
    (compute_edges cs).getD cs.length 0 = 1.0e10 := by
  cases cs with
  | nil => simp at h
  | cons c t =>
    rw [compute_edges_cons]
    have hm : (List.zipWith (fun a b => (a + b) / 2) t ((c :: t).dropLast)).length
        = t.length := by
      simp [List.length_zipWith]
    have := ListAux.getD_append_right
      (List.zipWith (fun a b => (a + b) / 2) t ((c :: t).dropLast))
      [(0 : ℝ) + 1.0e10] 0 0
    rw [List.length_cons, List.getD_cons_succ]
    rw [hm] at this
    simp only [Nat.add_zero] at this
    rw [this]
    norm_num

theorem compute_edges_getD_mid (cs : List ℝ) (i : ℕ) (h1 : 1 ≤ i)
    (h2 : i < cs.length) :
    (compute_edges cs).getD i 0 = (cs.getD (i - 1) 0 + cs.getD i 0) / 2 := by
  cases cs with
  | nil => simp at h2
  | cons c t =>
    rw [compute_edges_cons]
    obtain ⟨j, rfl⟩ : ∃ j, i = j + 1 := ⟨i - 1, by omega⟩
    rw [List.getD_cons_succ]
    have hm : (List.zipWith (fun a b => (a + b) / 2) t ((c :: t).dropLast)).length
        = t.length := by
      simp [List.length_zipWith]
    have hj : j < t.length := by simpa using h2
    rw [ListAux.getD_append_left _ _ _ j (by rw [hm]; exact hj)]
    rw [ListAux.getD_zipWith _ _ _ _ 0 0 j hj (by simpa using hj)]
    rw [ListAux.getD_dropLast _ _ j (by simpa using hj)]
    have hgt : (c :: t).getD (j + 1) 0 = t.getD j 0 := List.getD_cons_succ ..
    rw [Nat.add_sub_cancel, hgt]
    ring

theorem compute_edges_mid_mono (cs : List ℝ) (hmono : List.Pairwise (· ≤ ·) cs)
    (a b : ℕ) (h1 : 1 ≤ a) (hab : a ≤ b) (hb : b < cs.length) :
    (compute_edges cs).getD a 0 ≤ (compute_edges cs).getD b 0 := by
  rw [compute_edges_getD_mid cs a h1 (Nat.lt_of_le_of_lt hab hb),
    compute_edges_getD_mid cs b (Nat.le_trans h1 hab) hb]
  have hx : cs.getD (a - 1) 0 ≤ cs.getD (b - 1) 0 :=
    ListAux.pairwise_le_getD hmono (by omega) (by omega)
  have hy : cs.getD a 0 ≤ cs.getD b 0 :=
    ListAux.pairwise_le_getD hmono hab hb
  have := add_le_add hx hy
  linarith

/-- Every entry of the bin_probs value is non-negative (it is an exp). -/
theorem bin_probs_nonneg (bin_log_probs : List ℝ) :
    ∀ p ∈ bin_probs bin_log_probs, 0 ≤ p := by
  intro p hp
  obtain ⟨q, _, rfl⟩ := List.mem_map.mp hp
  exact (Real.exp_pos q).le

theorem sum_zipWith_zero (ws : List ℝ) :
    ∀ ms : List ℝ, (∀ j, j < ms.length → ms.getD j 0 = 0) →
      (List.zipWith (· * ·) ws ms).sum = 0 := by
  induction ws with
  | nil => intro ms _; simp
  | cons w wt ih =>
    intro ms h0
    cases ms with
    | nil => simp
    | cons m mt =>
      have hm : m = 0 := by simpa [List.getD_cons_zero] using h0 0 (by simp)
      have hrest := ih mt (fun j hj => by
        simpa [List.getD_cons_succ] using h0 (j + 1) (by simpa using Nat.succ_lt_succ hj))
      simp [hm, hrest]

theorem sum_zipWith_onehot (ws : List ℝ) :
    ∀ (ms : List ℝ) (i : ℕ), ws.length = ms.length → i < ms.length →
      ms.getD i 0 = 1 → (∀ j, j < ms.length → j ≠ i → ms.getD j 0 = 0) →
      (List.zipWith (· * ·) ws ms).sum = ws.getD i 0 := by
  induction ws with
  | nil => intro ms i hl hi _ _; rw [← hl] at hi; simp at hi
  | cons w wt ih =>
    intro ms i hl hi h1 h0
    cases ms with
    | nil => simp at hi
    | cons m mt =>
      cases i with
      | zero =>
        have hm : m = 1 := by simpa [List.getD_cons_zero] using h1
        have hrest := sum_zipWith_zero wt mt (fun j hj => by
          simpa [List.getD_cons_succ] using
            h0 (j + 1) (by simpa using Nat.succ_lt_succ hj) (by simp))
        simp [hm, hrest]
      | succ k =>
        have hm : m = 0 := by
          simpa [List.getD_cons_zero] using h0 0 (by simp) (by simp)
        have hrest := ih mt k (by simpa using hl) (by simpa using hi)
          (by simpa [List.getD_cons_succ] using h1)
          (fun j hj hne => by
            simpa [List.getD_cons_succ] using
              h0 (j + 1) (by simpa using Nat.succ_lt_succ hj)
                (by simpa using hne))
        simp [hm, hrest, List.getD_cons_succ]

/-- The log_prob mask list: length (when num_bins ≥ 1). -/
theorem log_prob_mask_length (bin_centers : List ℝ) (x : ℝ)
    (h : 1 ≤ bin_centers.length) :
    (List.zipWith
      (fun l r => (if l ≤ x then (1 : ℝ) else 0) * (if x < r then (1 : ℝ) else 0))
      (compute_edges bin_centers).dropLast
      ((compute_edges bin_centers).drop 1)).length = bin_centers.length := by
  simp [List.length_zipWith, compute_edges_length bin_centers h]

/-- The log_prob mask entry at bin j tests edge j and edge j+1. -/
theorem log_prob_mask_getD (bin_centers : List ℝ) (x : ℝ)
    (h : 1 ≤ bin_centers.length) (j : ℕ) (hj : j < bin_centers.length) :
    (List.zipWith
      (fun l r => (if l ≤ x then (1 : ℝ) else 0) * (if x < r then (1 : ℝ) else 0))
      (compute_edges bin_centers).dropLast
      ((compute_edges bin_centers).drop 1)).getD j 0 =
      (if (compute_edges bin_centers).getD j 0 ≤ x then (1 : ℝ) else 0) *
        (if x < (compute_edges bin_centers).getD (j + 1) 0 then (1 : ℝ) else 0) := by
  have hel : (compute_edges bin_centers).length = bin_centers.length + 1 :=
    compute_edges_length bin_centers h
  have hdl : j < (compute_edges bin_centers).dropLast.length := by
    simp [List.length_dropLast, hel]; omega
  have hdr : j < ((compute_edges bin_centers).drop 1).length := by
    simp [hel]; omega
  rw [ListAux.getD_zipWith _ _ _ _ 0 0 j hdl hdr]
  rw [ListAux.getD_dropLast _ _ j hdl, ListAux.getD_drop_one]

/-- If x lies in the half-open edge interval of bin i and the centers are
non-decreasing, log_prob returns exactly the i-th log probability. -/
theorem log_prob_eq_of_mem (bin_log_probs bin_centers : List ℝ) (x : ℝ) (i : ℕ)
    (hlen : bin_log_probs.length = bin_centers.length)
    (hmono : List.Pairwise (· ≤ ·) bin_centers)
    (hi : i < bin_centers.length)
    (hx1 : (compute_edges bin_centers).getD i 0 ≤ x)
    (hx2 : x < (compute_edges bin_centers).getD (i + 1) 0) :
    log_prob bin_log_probs bin_centers x = bin_log_probs.getD i 0 := by
  have h1 : 1 ≤ bin_centers.length := Nat.one_le_iff_ne_zero.mpr (by omega)
  rw [log_prob]
  apply sum_zipWith_onehot
  · rw [hlen, log_prob_mask_length bin_centers x h1]
  · rw [log_prob_mask_length bin_centers x h1]; exact hi
  · rw [log_prob_mask_getD bin_centers x h1 i hi, if_pos hx1, if_pos hx2]
    norm_num
  · intro j hj hne
    rw [log_prob_mask_length bin_centers x h1] at hj
    rw [log_prob_mask_getD bin_centers x h1 j hj]
    rcases Nat.lt_or_ge j i with hji | hij
    · have hle : (compute_edges bin_centers).getD (j + 1) 0 ≤
          (compute_edges bin_centers).getD i 0 := by
        rcases Nat.eq_or_lt_of_le (Nat.succ_le_of_lt hji) with he | hlt
        · exact le_of_eq (congrArg (fun k => (compute_edges bin_centers).getD k 0) he)
        · exact compute_edges_mid_mono bin_centers hmono (j + 1) i
            (Nat.le_add_left 1 j) (Nat.succ_le_of_lt hji) hi
      have : ¬ x < (compute_edges bin_centers).getD (j + 1) 0 :=
        not_lt.mpr (le_trans hle hx1)
      rw [if_neg this, mul_zero]
    · have hij' : i < j := Nat.lt_of_le_of_ne hij (fun h => hne h.symm)
      have hle : (compute_edges bin_centers).getD (i + 1) 0 ≤
          (compute_edges bin_centers).getD j 0 := by
        rcases Nat.eq_or_lt_of_le (Nat.succ_le_of_lt hij') with he | hlt
        · exact le_of_eq (congrArg (fun k => (compute_edges bin_centers).getD k 0) he)
        · exact compute_edges_mid_mono bin_centers hmono (i + 1) j
            (Nat.le_add_left 1 i) (Nat.succ_le_of_lt hij') hj
      have : ¬ (compute_edges bin_centers).getD j 0 ≤ x :=
        not_le.mpr (lt_of_lt_of_le hx2 hle)
      rw [if_neg this, zero_mul]

/-- If no bin's half-open edge interval contains x, log_prob returns 0. -/
theorem log_prob_eq_zero_of_no_bin (bin_log_probs bin_centers : List ℝ) (x : ℝ)
    (h : ∀ i, i < bin_centers.length →
      ¬((compute_edges bin_centers).getD i 0 ≤ x ∧
        x < (compute_edges bin_centers).getD (i + 1) 0)) :
    log_prob bin_log_probs bin_centers x = 0 := by
  cases bin_centers with
  | nil => simp [log_prob, compute_edges]
  | cons c t =>
    rw [log_prob]
    apply sum_zipWith_zero
    intro j hj
    rw [log_prob_mask_length (c :: t) x (by simp)] at hj
    rw [log_prob_mask_getD (c :: t) x (by simp) j hj]
    rcases not_and_or.mp (h j hj) with hA | hB
    · rw [if_neg hA, zero_mul]
    · rw [if_neg hB, mul_zero]

theorem sum_ind_filter (x : ℝ) :
    ∀ (ps cs : List ℝ), ps.length = cs.length →
      (List.zipWith (· * ·) ps (cs.map fun c => if c ≤ x then (1 : ℝ) else 0)).sum
        = (((cs.zip ps).filter (fun q => decide (q.1 ≤ x))).map Prod.snd).sum := by
  intro ps
  induction ps with
  | nil => intro cs h; cases cs with
    | nil => simp
    | cons c t => simp at h
  | cons p pt ih =>
    intro cs h
    cases cs with
    | nil => simp at h
    | cons c ct =>
      by_cases hc : c ≤ x
      · simp [List.filter_cons, hc, ih ct (by simpa using h)]
      · simp [List.filter_cons, hc, ih ct (by simpa using h)]

theorem sum_ind_mono (x1 x2 : ℝ) (h : x1 ≤ x2) :
    ∀ (ps cs : List ℝ), (∀ p ∈ ps, 0 ≤ p) →
      (List.zipWith (· * ·) ps (cs.map fun c => if c ≤ x1 then (1 : ℝ) else 0)).sum
        ≤ (List.zipWith (· * ·) ps (cs.map fun c => if c ≤ x2 then (1 : ℝ) else 0)).sum := by
  intro ps
  induction ps with
  | nil => intro cs _; simp
  | cons p pt ih =>
    intro cs hnn
    cases cs with
    | nil => simp
    | cons c ct =>
      have hterm : p * (if c ≤ x1 then (1 : ℝ) else 0)
          ≤ p * (if c ≤ x2 then (1 : ℝ) else 0) := by
        apply mul_le_mul_of_nonneg_left _ (hnn p (by simp))
        by_cases h1 : c ≤ x1
        · rw [if_pos h1, if_pos (le_trans h1 h)]
        · rw [if_neg h1]
          by_cases h2 : c ≤ x2
          · rw [if_pos h2]; norm_num
          · rw [if_neg h2]
      have hrest := ih ct (fun q hq => hnn q (by simp [hq]))
      simpa using add_le_add hterm hrest

theorem foldl_step_cell (lv : ℝ) :
    ∀ (ps : List ℝ) (c : ℝ) (i : ℕ),
      ps.foldl (step_cell lv) (c, i) = (c + ps.sum, i + count_le lv c ps) := by
  intro ps
  induction ps with
  | nil => intro c i; simp [count_le]
  | cons p pt ih =>
    intro c i
    rw [List.foldl_cons, step_cell, ih]
    rw [List.sum_cons, count_le]
    simp only [Prod.mk.injEq]
    refine ⟨by ring, ?_⟩
    by_cases h : c + p > lv
    · simp [h]
    · simp [h, Nat.add_assoc]

theorem count_le_le_length (lv : ℝ) :
    ∀ (ps : List ℝ) (c : ℝ), count_le lv c ps ≤ ps.length := by
  intro ps
  induction ps with
  | nil => intro c; simp [count_le]
  | cons p pt ih =>
    intro c
    rw [count_le, List.length_cons]
    have := ih (c + p)
    by_cases h : c + p > lv <;> simp [h] <;> omega

theorem count_le_eq_zero (lv : ℝ) :
    ∀ (ps : List ℝ) (c : ℝ), lv < c → (∀ p ∈ ps, 0 ≤ p) →
      count_le lv c ps = 0 := by
  intro ps
  induction ps with
  | nil => intro c _ _; simp [count_le]
  | cons p pt ih =>
    intro c hc hnn
    have hp : 0 ≤ p := hnn p (by simp)
    have hcp : lv < c + p := by linarith
    rw [count_le, if_pos hcp, ih (c + p) hcp (fun q hq => hnn q (by simp [hq]))]

/-- With non-negative probabilities, the scan count equals the first index
whose running cumulative sum strictly exceeds the level. -/
theorem count_le_eq_of_first (lv : ℝ) :
    ∀ (ps : List ℝ) (c : ℝ) (j : ℕ), (∀ p ∈ ps, 0 ≤ p) →
      lv < c + (ps.take (j + 1)).sum →
      (∀ k, k < j → c + (ps.take (k + 1)).sum ≤ lv) →
      count_le lv c ps = j := by
  intro ps
  induction ps with
  | nil =>
    intro c j _ hcross hall
    have hj : j = 0 := by
      by_contra h
      have h0 := hall 0 (by omega)
      simp at h0 hcross
      linarith
    rw [hj]
    simp [count_le]
  | cons p pt ih =>
    intro c j hnn hcross hall
    cases j with
    | zero =>
      have hcp : lv < c + p := by
        simpa using hcross
      rw [count_le, if_pos hcp,
        count_le_eq_zero lv pt (c + p) hcp (fun q hq => hnn q (by simp [hq]))]
    | succ k =>
      have h0 : c + p ≤ lv := by
        simpa using hall 0 (by omega)
      rw [count_le, if_neg (by linarith)]
      have hrest : count_le lv (c + p) pt = k := by
        apply ih (c + p) k (fun q hq => hnn q (by simp [hq]))
        · have : c + ((p :: pt).take (k + 2)).sum = (c + p) + (pt.take (k + 1)).sum := by
            simp [List.sum_cons]
            ring
          rw [← this]
          exact hcross
        · intro k' hk'
          have := hall (k' + 1) (by omega)
          have heq : c + ((p :: pt).take (k' + 2)).sum
              = (c + p) + (pt.take (k' + 1)).sum := by
            simp [List.sum_cons]
            ring
          linarith [heq ▸ this]
      omega

/-- If the level is below the total accumulated mass, the scan count stays
at most num_bins - 1. -/
theorem count_le_le_of_lt_sum (lv : ℝ) :
    ∀ (ps : List ℝ) (c : ℝ), lv < c + ps.sum →
      count_le lv c ps ≤ ps.length - 1 := by
  intro ps
  induction ps with
  | nil => intro c _; simp [count_le]
  | cons p pt ih =>
    intro c hlt
    cases pt with
    | nil =>
      have hcp : lv < c + p := by simpa using hlt
      simp [count_le, if_pos hcp]
    | cons q qt =>
      have hlt' : lv < (c + p) + (q :: qt).sum := by
        rw [List.sum_cons] at hlt
        linarith
      have := ih (c + p) hlt'
      rw [count_le]
      by_cases h : c + p > lv <;> simp [h] <;> simp at this <;> omega

/-- The scan count reaches num_bins only when the total mass is ≤ level. -/
theorem sum_le_of_count_eq_length (lv : ℝ) :
    ∀ (ps : List ℝ) (c : ℝ), 1 ≤ ps.length →
      count_le lv c ps = ps.length → c + ps.sum ≤ lv := by
  intro ps
  induction ps with
  | nil => intro c h _; simp at h
  | cons p pt ih =>
    intro c _ hcount
    rw [count_le] at hcount
    have hb : ¬ c + p > lv := by
      by_contra h
      rw [if_pos h] at hcount
      have := count_le_le_length lv pt (c + p)
      simp at hcount
      omega
    rw [if_neg hb] at hcount
    simp only [List.length_cons, Nat.add_comm] at hcount
    have hrest : count_le lv (c + p) pt = pt.length := by omega
    cases pt with
    | nil =>
      simp at hb ⊢
      linarith
    | cons q qt =>
      have := ih (c + p) (by simp) hrest
      rw [List.sum_cons]
      linarith

theorem step_cdf_getD (level : List ℝ) (cdf : List (List ℝ))
    (idx : List (List ℕ)) (p : List ℝ) {B L b l : ℕ}
    (hc : IsMat cdf B L) (hp : p.length = B) (hb : b < B) (hl : l < L) :
    (((step level (cdf, idx) p).1.getD b []).getD l 0)
      = (cdf.getD b []).getD l 0 + p.getD b 0 := by
  rw [step]
  rw [ListAux.getD_zipWith _ cdf p [] [] 0 b (by rw [hc.1]; exact hb)
    (by rw [hp]; exact hb)]
  rw [ListAux.getD_map _ _ 0 0 l (by rw [hc.2 b hb]; exact hl)]

theorem step_idx_getD (level : List ℝ) (cdf : List (List ℝ))
    (idx : List (List ℕ)) (p : List ℝ) {B L b l : ℕ}
    (hc : IsMat cdf B L) (hi : IsMat idx B L) (hp : p.length = B)
    (hlev : level.length = L) (hb : b < B) (hl : l < L) :
    (((step level (cdf, idx) p).2.getD b []).getD l 0)
      = (if (cdf.getD b []).getD l 0 + p.getD b 0 > level.getD l 0
          then (idx.getD b []).getD l 0 else (idx.getD b []).getD l 0 + 1) := by
  rw [step]
  have hzl : (List.zipWith (fun crow pb => crow.map (fun c => c + pb)) cdf p).length
      = B := by
    rw [List.length_zipWith, hc.1, hp, Nat.min_self]
  rw [ListAux.getD_zipWith _ _ idx [] [] [] b (by rw [hzl]; exact hb)
    (by rw [hi.1]; exact hb)]
  have hrow : ((List.zipWith (fun crow pb => crow.map (fun c => c + pb)) cdf p).getD b [])
      = (cdf.getD b []).map (fun c => c + p.getD b 0) := by
    rw [ListAux.getD_zipWith _ cdf p [] [] 0 b (by rw [hc.1]; exact hb)
      (by rw [hp]; exact hb)]
  rw [hrow]
  have hrl : ((cdf.getD b []).map (fun c => c + p.getD b 0)).length = L := by
    rw [List.length_map, hc.2 b hb]
  rw [ListAux.getD_zipWith _ _ _ 0 (0, 0) 0 l
    (by rw [List.length_zip, hrl, hlev, Nat.min_self]; exact hl)
    (by rw [hi.2 b hb]; exact hl)]
  rw [ListAux.getD_zip _ level (0, 0) 0 0 l (by rw [hrl]; exact hl)
    (by rw [hlev]; exact hl)]
  rw [ListAux.getD_map _ _ 0 0 l (by rw [hc.2 b hb]; exact hl)]

theorem step_shapes (level : List ℝ) (cdf : List (List ℝ))
    (idx : List (List ℕ)) (p : List ℝ) {B L : ℕ}
    (hc : IsMat cdf B L) (hi : IsMat idx B L) (hp : p.length = B)
    (hlev : level.length = L) :
    IsMat (step level (cdf, idx) p).1 B L ∧ IsMat (step level (cdf, idx) p).2 B L := by
  have hzl : (List.zipWith (fun crow pb => crow.map (fun c => c + pb)) cdf p).length
      = B := by
    rw [List.length_zipWith, hc.1, hp, Nat.min_self]
  have hrow : ∀ b, b < B →
      ((List.zipWith (fun crow pb => crow.map (fun c => c + pb)) cdf p).getD b []).length
        = L := by
    intro b hb
    rw [ListAux.getD_zipWith _ cdf p [] [] 0 b (by rw [hc.1]; exact hb)
      (by rw [hp]; exact hb)]
    rw [List.length_map, hc.2 b hb]
  constructor
  · exact ⟨by rw [step, hzl], fun b hb => by rw [step]; exact hrow b hb⟩
  · constructor
    · rw [step, List.length_zipWith, hzl, hi.1, Nat.min_self]
    · intro b hb
      rw [step]
      rw [ListAux.getD_zipWith _ _ idx [] [] [] b (by rw [hzl]; exact hb)
        (by rw [hi.1]; exact hb)]
      rw [List.length_zipWith, List.length_zip, hrow b hb, hlev, Nat.min_self,
        hi.2 b hb, Nat.min_self]

/-- The vectorized foreach scan of quantile computes, at every (batch, level)
cell, exactly the per-cell scan over that batch element's bin probabilities. -/
theorem foldl_step_pointwise (level : List ℝ) {B L : ℕ} (hlev : level.length = L) :
    ∀ (bins : List (List ℝ)), (∀ s ∈ bins, s.length = B) →
    ∀ (cdf0 : List (List ℝ)) (idx0 : List (List ℕ)),
      IsMat cdf0 B L → IsMat idx0 B L →
      (IsMat (bins.foldl (step level) (cdf0, idx0)).1 B L ∧
       IsMat (bins.foldl (step level) (cdf0, idx0)).2 B L) ∧
      ∀ b l, b < B → l < L →
        (((bins.foldl (step level) (cdf0, idx0)).1.getD b []).getD l 0,
         ((bins.foldl (step level) (cdf0, idx0)).2.getD b []).getD l 0)
          = (bins.map (fun s => s.getD b 0)).foldl (step_cell (level.getD l 0))
              ((cdf0.getD b []).getD l 0, (idx0.getD b []).getD l 0) := by
  intro bins
  induction bins with
  | nil =>
    intro _ cdf0 idx0 hc hi
    exact ⟨⟨hc, hi⟩, fun b l _ _ => rfl⟩
  | cons s bins ih =>
    intro hlen cdf0 idx0 hc hi
    have hs : s.length = B := hlen s (by simp)
    have hrest : ∀ t ∈ bins, t.length = B := fun t ht => hlen t (by simp [ht])
    have hshapes := step_shapes level cdf0 idx0 s hc hi hs hlev
    have hmain := ih hrest (step level (cdf0, idx0) s).1
      (step level (cdf0, idx0) s).2 hshapes.1 hshapes.2
    constructor
    · simpa using hmain.1
    · intro b l hb hl
      have hpt := hmain.2 b l hb hl
      rw [List.foldl_cons]
      have hstate :
          (((step level (cdf0, idx0) s).1.getD b []).getD l 0,
           ((step level (cdf0, idx0) s).2.getD b []).getD l 0)
            = step_cell (level.getD l 0)
                ((cdf0.getD b []).getD l 0, (idx0.getD b []).getD l 0)
                (s.getD b 0) := by
        rw [step_cdf_getD level cdf0 idx0 s hc hs hb hl,
          step_idx_getD level cdf0 idx0 s hc hi hs hlev hb hl, step_cell]
      rw [List.map_cons, List.foldl_cons, ← hstate]
      simpa using hpt

theorem swapaxes01_length {m : List (List ℝ)} {B n : ℕ} (hB : 1 ≤ B)
    (hm : IsMat m B n) : (swapaxes01 m).length = n := by
  cases m with
  | nil =>
    have := hm.1
    simp at this
    omega
  | cons r rest =>
    have hr : r.length = n := by
      have := hm.2 0 (by omega)
      simpa [List.getD_cons_zero] using this
    simp [swapaxes01, hr]

theorem swapaxes01_mem_length {m : List (List ℝ)} {B n : ℕ}
    (hm : IsMat m B n) : ∀ s ∈ swapaxes01 m, s.length = B := by
  cases m with
  | nil => simp [swapaxes01]
  | cons r rest =>
    intro s hs
    simp only [swapaxes01, List.mem_map] at hs
    obtain ⟨j, _, rfl⟩ := hs
    rw [List.length_map]
    exact hm.1

theorem swapaxes01_getD {m : List (List ℝ)} {B n : ℕ} (hB : 1 ≤ B)
    (hm : IsMat m B n) (j : ℕ) (hj : j < n) :
    (swapaxes01 m).getD j [] = m.map (fun row => row.getD j 0) := by
  cases m with
  | nil =>
    have := hm.1
    simp at this
    omega
  | cons r rest =>
    have hr : r.length = n := by
      have := hm.2 0 (by omega)
      simpa [List.getD_cons_zero] using this
    simp only [swapaxes01]
    rw [ListAux.getD_map _ _ [] 0 j (by rw [List.length_range, hr]; exact hj)]
    rw [ListAux.getD_range _ 0 j (by rw [hr]; exact hj)]

theorem swapaxes01_map_getD {m : List (List ℝ)} {B n : ℕ} (hB : 1 ≤ B)
    (hm : IsMat m B n) (b : ℕ) (hb : b < B) :
    (swapaxes01 m).map (fun s => s.getD b 0) = m.getD b [] := by
  cases m with
  | nil =>
    have := hm.1
    simp at this
    omega
  | cons r rest =>
    have hr : r.length = n := by
      have := hm.2 0 (by omega)
      simpa [List.getD_cons_zero] using this
    simp only [swapaxes01, List.map_map]
    have hrow : ((r :: rest).getD b []).length = n := hm.2 b hb
    have hmem : ∀ j ∈ List.range r.length,
        ((fun s => s.getD b 0) ∘ fun j => (r :: rest).map fun row => row.getD j 0) j
          = ((r :: rest).getD b []).getD j 0 := by
      intro j _
      simp only [Function.comp]
      rw [ListAux.getD_map _ _ 0 [] b (hm.1.symm ▸ hb)]
    rw [List.map_congr_left hmem, hr]
    exact (ListAux.eq_range_map hrow 0).symm

theorem swapaxes01_headD_length {m : List (List ℝ)} {B n : ℕ} (hB : 1 ≤ B)
    (hn : 1 ≤ n) (hm : IsMat m B n) :
    ((swapaxes01 m).headD []).length = B := by
  have hlen := swapaxes01_length hB hm
  have hne : swapaxes01 m ≠ [] := by
    intro h
    rw [h] at hlen
    simp at hlen
    omega
  obtain ⟨s, t, hst⟩ := List.exists_cons_of_ne_nil hne
  have hs : s.length = B := swapaxes01_mem_length hm s (by rw [hst]; simp)
  rw [hst]
  simpa using hs

/-- The final idx state of the quantile scan has shape (batch, num_levels) and
holds, per cell, the per-element scan count. -/
theorem quantile_scan_spec (probs : List (List ℝ)) (level : List ℝ) {B n L : ℕ}
    (hB : 1 ≤ B) (hn : 1 ≤ n) (hm : IsMat probs B n) (hlev : level.length = L) :
    IsMat (quantile_scan probs level).2 B L ∧
    ∀ b l, b < B → l < L →
      ((quantile_scan probs level).2.getD b []).getD l 0
        = count_le (level.getD l 0) 0 (probs.getD b []) := by
  have hhead : ((swapaxes01 probs).headD []).length = B :=
    swapaxes01_headD_length hB hn hm
  have hzc : IsMat (((swapaxes01 probs).headD []).map
      (fun _ => level.map fun _ => (0 : ℝ))) B L := by
    refine ⟨by rw [List.length_map, hhead], fun b hb => ?_⟩
    rw [ListAux.getD_map _ _ [] 0 b (by rw [hhead]; exact hb)]
    rw [List.length_map, hlev]
  have hzi : IsMat (((swapaxes01 probs).headD []).map
      (fun _ => level.map fun _ => (0 : ℕ))) B L := by
    refine ⟨by rw [List.length_map, hhead], fun b hb => ?_⟩
    rw [ListAux.getD_map _ _ [] 0 b (by rw [hhead]; exact hb)]
    rw [List.length_map, hlev]
  have hfold := foldl_step_pointwise level hlev (swapaxes01 probs)
    (swapaxes01_mem_length hm) _ _ hzc hzi
  constructor
  · rw [quantile_scan]
    exact hfold.1.2
  · intro b l hb hl
    have hpt := congrArg Prod.snd (hfold.2 b l hb hl)
    simp only at hpt
    rw [quantile_scan]
    rw [hpt]
    have hz1 : ((((swapaxes01 probs).headD []).map
        (fun _ => level.map fun _ => (0 : ℝ))).getD b []).getD l 0 = 0 := by
      rw [ListAux.getD_map _ _ [] 0 b (by rw [hhead]; exact hb)]
      rw [ListAux.getD_map _ _ 0 0 l (by rw [hlev]; exact hl)]
    have hz2 : ((((swapaxes01 probs).headD []).map
        (fun _ => level.map fun _ => (0 : ℕ))).getD b []).getD l 0 = 0 := by
      rw [ListAux.getD_map _ _ [] 0 b (by rw [hhead]; exact hb)]
      rw [ListAux.getD_map _ _ 0 0 l (by rw [hlev]; exact hl)]
    rw [hz1, hz2, swapaxes01_map_getD hB hm b hb, foldl_step_cell]
    simp

/-- Shape and cell values of the full quantile method, on a rank-1 batch. -/
theorem quantile_spec (bin_log_probs bin_centers : List (List ℝ))
    (level : List ℝ) {B n L : ℕ} (hB : 1 ≤ B) (hn : 1 ≤ n)
    (hlp : IsMat bin_log_probs B n) (hcs : IsMat bin_centers B n)
    (hlev : level.length = L) :
    (quantile bin_log_probs bin_centers level).length = L ∧
    (∀ l, l < L → ((quantile bin_log_probs bin_centers level).getD l []).length = B) ∧
    ∀ b l, b < B → l < L →
      ((quantile bin_log_probs bin_centers level).getD l []).getD b 0
        = pick (bin_centers.getD b [])
            (count_le (level.getD l 0) 0 ((bin_log_probs.getD b []).map Real.exp)) := by
  have hprobs : IsMat (bin_log_probs.map bin_probs) B n := by
    refine ⟨by rw [List.length_map, hlp.1], fun b hb => ?_⟩
    rw [ListAux.getD_map _ _ [] [] b (by rw [hlp.1]; exact hb)]
    rw [bin_probs, List.length_map, hlp.2 b hb]
  have hscan := quantile_scan_spec (bin_log_probs.map bin_probs) level hB hn hprobs hlev
  have hpicked : IsMat
      (List.zipWith (fun cs irow => irow.map (fun i => pick cs i))
        bin_centers (quantile_scan (bin_log_probs.map bin_probs) level).2) B L := by
    refine ⟨by rw [List.length_zipWith, hcs.1, hscan.1.1, Nat.min_self], fun b hb => ?_⟩
    rw [ListAux.getD_zipWith _ _ _ [] [] [] b (by rw [hcs.1]; exact hb)
      (by rw [hscan.1.1]; exact hb)]
    rw [List.length_map, hscan.1.2 b hb]
  have hpickedval : ∀ b l, b < B → l < L →
      ((List.zipWith (fun cs irow => irow.map (fun i => pick cs i))
          bin_centers (quantile_scan (bin_log_probs.map bin_probs) level).2).getD b []).getD l 0
        = pick (bin_centers.getD b [])
            (count_le (level.getD l 0) 0 ((bin_log_probs.getD b []).map Real.exp)) := by
    intro b l hb hl
    rw [ListAux.getD_zipWith _ _ _ [] [] [] b (by rw [hcs.1]; exact hb)
      (by rw [hscan.1.1]; exact hb)]
    rw [ListAux.getD_map _ _ 0 0 l (by rw [hscan.1.2 b hb]; exact hl)]
    rw [hscan.2 b l hb hl]
    rw [ListAux.getD_map _ _ [] [] b (by rw [hlp.1]; exact hb)]
    rfl
  refine ⟨?_, ?_, ?_⟩
  · rw [quantile]
    exact swapaxes01_length hB hpicked
  · intro l hl
    rw [quantile, swapaxes01_getD hB hpicked l hl, List.length_map, hpicked.1]
  · intro b l hb hl
    rw [quantile, swapaxes01_getD hB hpicked l hl]
    rw [ListAux.getD_map _ _ 0 [] b (by rw [hpicked.1]; exact hb)]
    exact hpickedval b l hb hl

theorem first_cross_lt_length {ps : List ℝ} {lv : ℝ} {j : ℕ}
    (hn : 1 ≤ ps.length) (h : first_cross ps lv j) : j < ps.length := by
  by_contra hge
  push_neg at hge
  have hk := h.2 (ps.length - 1) (by omega)
  have h1 := h.1
  rw [List.take_of_length_le (by omega)] at hk
  rw [List.take_of_length_le (by omega)] at h1
  linarith

theorem count_le_first_cross {ps : List ℝ} {lv : ℝ} {j : ℕ}
    (hnn : ∀ p ∈ ps, 0 ≤ p) (h : first_cross ps lv j) :
    count_le lv 0 ps = j := by
  apply count_le_eq_of_first lv ps 0 j hnn
  · simpa using h.1
  · intro k hk
    simpa using h.2 k hk

end Binned

namespace ListAux

/-- Two lists are equal when they have the same length and the same getD
values at every position below the length. -/
theorem eq_of_getD {l l' : List α} (d : α) (h : l.length = l'.length)
    (he : ∀ i, i < l.length → l.getD i d = l'.getD i d) : l = l' := by
  apply List.ext_getElem h
  intro i h1 h2
  have := he i h1
  rwa [List.getD_eq_getElem _ _ h1, List.getD_eq_getElem _ _ h2] at this

end ListAux

namespace Binned

theorem example_log_probs_exp :
    example_log_probs.map Real.exp = [1 / 5, 3 / 10, 1 / 2] := by
  simp only [example_log_probs, List.map_cons, List.map_nil]
  rw [Real.exp_log (by norm_num), Real.exp_log (by norm_num),
    Real.exp_log (by norm_num)]

theorem example_count_a : count_le (1 / 5) 0 [1 / 5, 3 / 10, (1 / 2 : ℝ)] = 1 := by
  rw [count_le, count_le, count_le, count_le,
    if_neg (by norm_num), if_pos (by norm_num), if_pos (by norm_num)]

theorem example_count_b : count_le (49 / 100) 0 [1 / 5, 3 / 10, (1 / 2 : ℝ)] = 1 := by
  rw [count_le, count_le, count_le, count_le,
    if_neg (by norm_num), if_pos (by norm_num), if_pos (by norm_num)]

theorem example_count_c : count_le (51 / 100) 0 [1 / 5, 3 / 10, (1 / 2 : ℝ)] = 2 := by
  rw [count_le, count_le, count_le, count_le,
    if_neg (by norm_num), if_neg (by norm_num), if_pos (by norm_num)]

/-- Evaluation of quantile on the example distribution at the three levels of
the spec's concrete check. -/
theorem example_quantile_eval :
    quantile [example_log_probs] [[1, 2, 3]] [1 / 5, 49 / 100, 51 / 100]
      = [[2], [2], [3]] := by
  have hlp : IsMat [example_log_probs] 1 3 := by
    refine ⟨by simp, fun i hi => ?_⟩
    interval_cases i
    simp [example_log_probs]
  have hcs : IsMat [[(1 : ℝ), 2, 3]] 1 3 := by
    refine ⟨by simp, fun i hi => ?_⟩
    interval_cases i
    simp
  have hq := quantile_spec [example_log_probs] [[1, 2, 3]]
    [1 / 5, 49 / 100, 51 / 100] (B := 1) (n := 3) (L := 3)
    (by norm_num) (by norm_num) hlp hcs (by simp)
  apply ListAux.eq_of_getD ([] : List ℝ) (by rw [hq.1]; simp)
  intro l hl
  rw [hq.1] at hl
  apply ListAux.eq_of_getD (0 : ℝ) (by rw [hq.2.1 l hl]; interval_cases l <;> simp)
  intro b hb
  rw [hq.2.1 l hl] at hb
  have hb0 : b = 0 := by omega
  subst hb0
  rw [hq.2.2 0 l (by omega) hl]
  have hrow : (([example_log_probs].getD 0 []).map Real.exp)
      = [1 / 5, 3 / 10, 1 / 2] := by
    rw [List.getD_cons_zero]
    exact example_log_probs_exp
  rw [hrow]
  interval_cases l
  · rw [show ([(1 / 5 : ℝ), 49 / 100, 51 / 100].getD 0 0) = 1 / 5 from rfl,
      example_count_a]
    simp [pick]
  · rw [show ([(1 / 5 : ℝ), 49 / 100, 51 / 100].getD 1 0) = 49 / 100 from rfl,
      example_count_b]
    simp [pick]
  · rw [show ([(1 / 5 : ℝ), 49 / 100, 51 / 100].getD 2 0) = 51 / 100 from rfl,
      example_count_c]
    simp [pick]

end Binned

namespace BinnedOutput

/-- Shape and entries of a row-wise broadcast combine of a matrix with a
batch vector. -/
theorem rows_comb_spec (g : ℝ → ℝ → ℝ) {m : List (List ℝ)} {v : List ℝ}
    {B L : ℕ} (hm : Binned.IsMat m B L) (hv : v.length = B) :
    Binned.IsMat (List.zipWith (fun crow x => crow.map (fun c => g c x)) m v) B L ∧
    ∀ b j, b < B → j < L →
      ((List.zipWith (fun crow x => crow.map (fun c => g c x)) m v).getD b []).getD j 0
        = g ((m.getD b []).getD j 0) (v.getD b 0) := by
  constructor
  · refine ⟨by rw [List.length_zipWith, hm.1, hv, Nat.min_self], fun b hb => ?_⟩
    rw [ListAux.getD_zipWith _ _ _ [] [] 0 b (by rw [hm.1]; exact hb)
      (by rw [hv]; exact hb)]
    rw [List.length_map, hm.2 b hb]
  · intro b j hb hj
    rw [ListAux.getD_zipWith _ _ _ [] [] 0 b (by rw [hm.1]; exact hb)
      (by rw [hv]; exact hb)]
    rw [ListAux.getD_map _ _ 0 0 j (by rw [hm.2 b hb]; exact hj)]

/-- Shape and entries of the centers produced by args_centers. -/
theorem args_centers_spec (bin_centers : List ℝ) (ps : List (List ℝ))
    {B n : ℕ} (hp : Binned.IsMat ps B n) (hc : bin_centers.length = n) :
    Binned.IsMat (args_centers bin_centers ps) B n ∧
    ∀ b j, b < B → j < n →
      ((args_centers bin_centers ps).getD b []).getD j 0 = bin_centers.getD j 0 := by
  constructor
  · refine ⟨by rw [args_centers, List.length_map, hp.1], fun b hb => ?_⟩
    rw [args_centers, ListAux.getD_map _ _ [] [] b (by rw [hp.1]; exact hb)]
    rw [List.length_zipWith, hc, List.length_map, hp.2 b hb, Nat.min_self]
  · intro b j hb hj
    rw [args_centers, ListAux.getD_map _ _ [] [] b (by rw [hp.1]; exact hb)]
    rw [ListAux.getD_zipWith _ _ _ 0 0 0 j (by rw [hc]; exact hj)
      (by rw [List.length_map, hp.2 b hb]; exact hj)]
    rw [ListAux.getD_map _ _ 0 0 j (by rw [hp.2 b hb]; exact hj)]
    ring

/-- Shape and entries of the re-broadcast against ones_like(probs). -/
theorem ones_mul_spec {bc ps : List (List ℝ)} {B n : ℕ}
    (hbc : Binned.IsMat bc B n) (hp : Binned.IsMat ps B n) :
    Binned.IsMat
      (List.zipWith
        (fun crow prow => List.zipWith (· * ·) crow (prow.map fun _ => (1 : ℝ)))
        bc ps) B n ∧
    ∀ b j, b < B → j < n →
      ((List.zipWith
          (fun crow prow => List.zipWith (· * ·) crow (prow.map fun _ => (1 : ℝ)))
          bc ps).getD b []).getD j 0
        = ((bc.getD b []).getD j 0) := by
  constructor
  · refine ⟨by rw [List.length_zipWith, hbc.1, hp.1, Nat.min_self], fun b hb => ?_⟩
    rw [ListAux.getD_zipWith _ _ _ [] [] [] b (by rw [hbc.1]; exact hb)
      (by rw [hp.1]; exact hb)]
    rw [List.length_zipWith, hbc.2 b hb, List.length_map, hp.2 b hb, Nat.min_self]
  · intro b j hb hj
    rw [ListAux.getD_zipWith _ _ _ [] [] [] b (by rw [hbc.1]; exact hb)
      (by rw [hp.1]; exact hb)]
    rw [ListAux.getD_zipWith _ _ _ 0 0 0 j (by rw [hbc.2 b hb]; exact hj)
      (by rw [List.length_map, hp.2 b hb]; exact hj)]
    rw [ListAux.getD_map _ _ 0 0 j (by rw [hp.2 b hb]; exact hj)]
    ring

end BinnedOutput

namespace Binned

theorem zipWith_mul_eq_zip_map :
    ∀ as bs : List ℝ,
      List.zipWith (· * ·) as bs = (as.zip bs).map (fun q => q.1 * q.2) := by
  intro as
  induction as with
  | nil => intro bs; simp
  | cons a t ih =>
    intro bs
    cases bs with
    | nil => simp
    | cons b u => simp [ih u]

theorem example_mean : mean example_log_probs [1, 2, 3] = 23 / 10 := by
  rw [mean, bin_probs, example_log_probs_exp]
  norm_num

theorem example_stddev :
    stddev example_log_probs [1, 2, 3] = Real.sqrt (61 / 100) := by
  rw [stddev, bin_probs, example_log_probs_exp, example_mean]
  apply congrArg Real.sqrt
  norm_num

/-- On a singleton batch, quantile at a single level returns the center of
the first bin whose cumulative probability strictly exceeds the level. -/
theorem quantile_batch1_first_cross
    (bin_log_probs bin_centers : List ℝ) (lv : ℝ) (j : ℕ)
    (hlen : bin_log_probs.length = bin_centers.length)
    (hn : 1 ≤ bin_centers.length)
    (hfc : first_cross (bin_log_probs.map Real.exp) lv j) :
    quantile [bin_log_probs] [bin_centers] [lv] = [[bin_centers.getD j 0]] := by
  have hlp : IsMat [bin_log_probs] 1 bin_centers.length := by
    refine ⟨by simp, fun i hi => ?_⟩
    interval_cases i
    simpa [List.getD_cons_zero] using hlen
  have hcs : IsMat [bin_centers] 1 bin_centers.length := by
    refine ⟨by simp, fun i hi => ?_⟩
    interval_cases i
    simp [List.getD_cons_zero]
  have hq := quantile_spec [bin_log_probs] [bin_centers] [lv]
    (B := 1) (n := bin_centers.length) (L := 1) (by norm_num) hn hlp hcs (by simp)
  have hps_len : (bin_log_probs.map Real.exp).length = bin_centers.length := by
    rw [List.length_map, hlen]
  have hjlt : j < bin_centers.length := by
    have := first_cross_lt_length (by rw [hps_len]; exact hn) hfc
    rwa [hps_len] at this
  have hcount : count_le ([lv].getD 0 0) 0
      (([bin_log_probs].getD 0 []).map Real.exp) = j := by
    rw [List.getD_cons_zero, List.getD_cons_zero]
    exact count_le_first_cross
      (fun p hp => by
        obtain ⟨q, _, rfl⟩ := List.mem_map.mp hp
        exact (Real.exp_pos q).le) hfc
  have hentry := hq.2.2 0 0 (by norm_num) (by norm_num)
  rw [hcount] at hentry
  have hpick : pick ([bin_centers].getD 0 []) j = bin_centers.getD j 0 := by
    rw [List.getD_cons_zero, pick]
    congr 1
    omega
  rw [hpick] at hentry
  apply ListAux.eq_of_getD ([] : List ℝ) (by rw [hq.1]; simp)
  intro l hl
  rw [hq.1] at hl
  have hl0 : l = 0 := by omega
  subst hl0
  apply ListAux.eq_of_getD (0 : ℝ) (by rw [hq.2.1 0 (by norm_num)]; simp)
  intro b hb
  rw [hq.2.1 0 (by norm_num)] at hb
  have hb0 : b = 0 := by omega
  subst hb0
  rw [hentry]
  simp

/-- C1: quantile uses a strict greater-than crossing test — the selected bin
is the first whose running cumulative probability strictly exceeds the level
(a level equal to a partial sum rolls to the next bin) — and concretely, for
probabilities [0.2, 0.3, 0.5] and centers [1, 2, 3], the levels 0.2, 0.49 and
0.51 return centers 2, 2 and 3. -/
theorem c1_quantile_strict_crossing :
    (∀ (bin_log_probs bin_centers : List ℝ) (lv : ℝ) (j : ℕ),
        bin_log_probs.length = bin_centers.length →
        1 ≤ bin_centers.length →
        first_cross (bin_log_probs.map Real.exp) lv j →
        quantile [bin_log_probs] [bin_centers] [lv] = [[bin_centers.getD j 0]]) ∧
    quantile [example_log_probs] [[1, 2, 3]] [1 / 5, 49 / 100, 51 / 100]
      = [[2], [2], [3]] :=
  ⟨quantile_batch1_first_cross, example_quantile_eval⟩

theorem c1_quantile_strict_crossing_witness :
    first_cross (example_log_probs.map Real.exp) (51 / 100) 2 ∧
      quantile [example_log_probs] [[1, 2, 3]] [51 / 100]
        = [[[(1 : ℝ), 2, 3].getD 2 0]] := by
  have hfc : first_cross (example_log_probs.map Real.exp) (51 / 100) 2 := by
    rw [example_log_probs_exp]
    constructor
    · rw [show ([(1 : ℝ) / 5, 3 / 10, 1 / 2].take 3) = [1 / 5, 3 / 10, 1 / 2]
        from rfl]
      norm_num
    · intro k hk
      interval_cases k
      · rw [show ([(1 : ℝ) / 5, 3 / 10, 1 / 2].take 1) = [1 / 5] from rfl]
        norm_num
      · rw [show ([(1 : ℝ) / 5, 3 / 10, 1 / 2].take 2) = [1 / 5, 3 / 10] from rfl]
        norm_num
  exact ⟨hfc, c1_quantile_strict_crossing.1 example_log_probs [1, 2, 3]
    (51 / 100) 2 (by simp [example_log_probs]) (by simp) hfc⟩

/-- C2 counterexample: at level 0.2 on probabilities [0.2, 0.3, 0.5] with
centers [1, 2, 3] the code returns center 2, while the center whose cumulative
mass first meets or exceeds the level (the claim's selection rule) is 1. -/
theorem c2_meets_or_exceeds_counterexample :
    quantile [example_log_probs] [[1, 2, 3]] [1 / 5] = [[2]] ∧
    quantile_meets_spec [1 / 5, 3 / 10, 1 / 2] [1, 2, 3] (1 / 5) = 1 ∧
    quantile [example_log_probs] [[1, 2, 3]] [1 / 5]
      ≠ [[quantile_meets_spec [1 / 5, 3 / 10, 1 / 2] [1, 2, 3] (1 / 5)]] := by
  have hfc : first_cross (example_log_probs.map Real.exp) (1 / 5) 1 := by
    rw [example_log_probs_exp]
    constructor
    · rw [show ([(1 : ℝ) / 5, 3 / 10, 1 / 2].take 2) = [1 / 5, 3 / 10] from rfl]
      norm_num
    · intro k hk
      interval_cases k
      rw [show ([(1 : ℝ) / 5, 3 / 10, 1 / 2].take 1) = [1 / 5] from rfl]
      norm_num
  have h1 : quantile [example_log_probs] [[1, 2, 3]] [1 / 5] = [[2]] := by
    have := quantile_batch1_first_cross example_log_probs [1, 2, 3] (1 / 5) 1
      (by simp [example_log_probs]) (by simp) hfc
    simpa using this
  have h2 : quantile_meets_spec [1 / 5, 3 / 10, 1 / 2] [1, 2, 3] (1 / 5) = 1 := by
    rw [quantile_meets_spec]
    rw [show first_ge (1 / 5 : ℝ) 0 [1 / 5, 3 / 10, 1 / 2] = 0 by
      rw [first_ge, if_pos (by norm_num)]]
    simp
  refine ⟨h1, h2, ?_⟩
  rw [h1, h2]
  intro h
  have := List.head_eq_of_cons_eq h
  have h22 := List.head_eq_of_cons_eq this
  norm_num at h22

/-- C2 (amended): for every rank-1 batch and level tensor, quantile returns a
tensor of shape (num_levels, batch) whose entry for batch element b and level
l is the center of the first bin whose running cumulative mass strictly
exceeds that level. -/
theorem c2_quantile_rank1_strict :
    ∀ (bin_log_probs bin_centers : List (List ℝ)) (level : List ℝ) (B n L : ℕ),
      1 ≤ B → 1 ≤ n → IsMat bin_log_probs B n → IsMat bin_centers B n →
      level.length = L →
      (quantile bin_log_probs bin_centers level).length = L ∧
      (∀ l, l < L →
        ((quantile bin_log_probs bin_centers level).getD l []).length = B) ∧
      (∀ b l j, b < B → l < L →
        first_cross ((bin_log_probs.getD b []).map Real.exp) (level.getD l 0) j →
        ((quantile bin_log_probs bin_centers level).getD l []).getD b 0
          = (bin_centers.getD b []).getD j 0) := by
  intro lp cs level B n L hB hn hlp hcs hlev
  have hq := quantile_spec lp cs level hB hn hlp hcs hlev
  refine ⟨hq.1, hq.2.1, ?_⟩
  intro b l j hb hl hfc
  have hps : ((lp.getD b []).map Real.exp).length = n := by
    rw [List.length_map, hlp.2 b hb]
  have hj : j < n := by
    have := first_cross_lt_length (by rw [hps]; exact hn) hfc
    rwa [hps] at this
  have hcount := count_le_first_cross
    (fun p hp => by
      obtain ⟨q, _, rfl⟩ := List.mem_map.mp hp
      exact (Real.exp_pos q).le) hfc
  rw [hq.2.2 b l hb hl, hcount, pick, hcs.2 b hb]
  congr 1
  omega

theorem c2_quantile_rank1_strict_witness :
    IsMat [example_log_probs] 1 3 ∧
      (quantile [example_log_probs] [[(1 : ℝ), 2, 3]] [51 / 100]).length = 1 := by
  have hlp : IsMat [example_log_probs] 1 3 := by
    refine ⟨by simp, fun i hi => ?_⟩
    interval_cases i
    simp [example_log_probs]
  have hcs : IsMat [[(1 : ℝ), 2, 3]] 1 3 := by
    refine ⟨by simp, fun i hi => ?_⟩
    interval_cases i
    simp
  exact ⟨hlp, (c2_quantile_rank1_strict [example_log_probs] [[1, 2, 3]]
    [51 / 100] 1 3 1 (by norm_num) (by norm_num) hlp hcs (by simp)).1⟩

/-- C3: for a level below the row's total probability mass, the index
produced by the quantile scan stays within [0, num_bins - 1] (so the final
gather is in range); the index can reach num_bins only when the level is at
least the total mass. -/
theorem c3_scan_index_in_range :
    ∀ (bin_log_probs : List (List ℝ)) (level : List ℝ) (B n L b l : ℕ),
      1 ≤ B → 1 ≤ n → IsMat bin_log_probs B n → level.length = L →
      b < B → l < L →
      ((0 ≤ level.getD l 0 →
          level.getD l 0 < ((bin_log_probs.getD b []).map Real.exp).sum →
          (((quantile_scan (bin_log_probs.map bin_probs) level).2.getD b []).getD l 0)
            ≤ n - 1) ∧
        ((((quantile_scan (bin_log_probs.map bin_probs) level).2.getD b []).getD l 0)
            = n →
          ((bin_log_probs.getD b []).map Real.exp).sum ≤ level.getD l 0)) := by
  intro lp level B n L b l hB hn hlp hlev hb hl
  have hpm : IsMat (lp.map bin_probs) B n := by
    refine ⟨by rw [List.length_map, hlp.1], fun i hi => ?_⟩
    rw [ListAux.getD_map _ _ [] [] i (by rw [hlp.1]; exact hi), bin_probs,
      List.length_map, hlp.2 i hi]
  have hscan := quantile_scan_spec (lp.map bin_probs) level hB hn hpm hlev
  have hrow : (lp.map bin_probs).getD b [] = (lp.getD b []).map Real.exp := by
    rw [ListAux.getD_map _ _ [] [] b (by rw [hlp.1]; exact hb)]
    rfl
  have hps_len : ((lp.getD b []).map Real.exp).length = n := by
    rw [List.length_map, hlp.2 b hb]
  have hidx := hscan.2 b l hb hl
  rw [hidx, hrow]
  constructor
  · intro _ hlt
    have := count_le_le_of_lt_sum (level.getD l 0) ((lp.getD b []).map Real.exp) 0
      (by simpa using hlt)
    rwa [hps_len] at this
  · intro heq
    have := sum_le_of_count_eq_length (level.getD l 0)
      ((lp.getD b []).map Real.exp) 0 (by rw [hps_len]; exact hn)
      (by rw [hps_len]; exact heq)
    simpa using this

theorem c3_scan_index_in_range_witness :
    IsMat [[(0 : ℝ)]] 1 1 ∧
      ((0 ≤ [(1 / 2 : ℝ)].getD 0 0 →
          [(1 / 2 : ℝ)].getD 0 0 < (([[(0 : ℝ)]].getD 0 []).map Real.exp).sum →
          (((quantile_scan ([[(0 : ℝ)]].map bin_probs) [1 / 2]).2.getD 0 []).getD 0 0)
            ≤ 1 - 1) ∧
        ((((quantile_scan ([[(0 : ℝ)]].map bin_probs) [1 / 2]).2.getD 0 []).getD 0 0)
            = 1 →
          (([[(0 : ℝ)]].getD 0 []).map Real.exp).sum ≤ [(1 / 2 : ℝ)].getD 0 0)) := by
  have hlp : IsMat [[(0 : ℝ)]] 1 1 := by
    refine ⟨by simp, fun i hi => ?_⟩
    interval_cases i
    simp
  exact ⟨hlp, c3_scan_index_in_range [[(0 : ℝ)]] [1 / 2] 1 1 1 0 0
    (by norm_num) (by norm_num) hlp (by simp) (by norm_num) (by norm_num)⟩

/-- C4: for every query x, cdf(x) equals the sum of bin_probs over exactly
those bins whose center is ≤ x (centers, not right edges, are the jump
points). -/
theorem c4_cdf_center_filter :
    ∀ (bin_log_probs bin_centers : List ℝ) (x : ℝ),
      bin_log_probs.length = bin_centers.length →
      cdf bin_log_probs bin_centers x = cdf_spec bin_log_probs bin_centers x := by
  intro bin_log_probs bin_centers x hlen
  rw [cdf, cdf_spec]
  exact sum_ind_filter x (bin_probs bin_log_probs) bin_centers
    (by rw [bin_probs, List.length_map]; exact hlen)

theorem c4_cdf_center_filter_witness :
    ([(0 : ℝ), 0].length = [(1 : ℝ), 2].length) ∧
      cdf [0, 0] [1, 2] (3 / 2) = cdf_spec [0, 0] [1, 2] (3 / 2) :=
  ⟨by simp, c4_cdf_center_filter [0, 0] [1, 2] (3 / 2) (by simp)⟩

/-- C5: with non-decreasing centers, log_prob of an x lying in bin i's
half-open edge interval is bin_log_probs[i]; if no bin matches, log_prob
returns 0. -/
theorem c5_log_prob_contained_bin :
    (∀ (bin_log_probs bin_centers : List ℝ) (x : ℝ) (i : ℕ),
        bin_log_probs.length = bin_centers.length →
        List.Pairwise (· ≤ ·) bin_centers →
        i < bin_centers.length →
        (compute_edges bin_centers).getD i 0 ≤ x →
        x < (compute_edges bin_centers).getD (i + 1) 0 →
        log_prob bin_log_probs bin_centers x = bin_log_probs.getD i 0) ∧
    (∀ (bin_log_probs bin_centers : List ℝ) (x : ℝ),
        (∀ i, i < bin_centers.length →
          ¬((compute_edges bin_centers).getD i 0 ≤ x ∧
            x < (compute_edges bin_centers).getD (i + 1) 0)) →
        log_prob bin_log_probs bin_centers x = 0) :=
  ⟨log_prob_eq_of_mem, log_prob_eq_zero_of_no_bin⟩

theorem c5_log_prob_contained_bin_witness :
    ((compute_edges [1, 2, 3]).getD 0 0 ≤ (1 : ℝ) ∧
      (1 : ℝ) < (compute_edges [1, 2, 3]).getD 1 0) ∧
      log_prob [5, 7, 9] [1, 2, 3] 1 = [(5 : ℝ), 7, 9].getD 0 0 :=
  ⟨⟨by norm_num [compute_edges], by norm_num [compute_edges]⟩,
    c5_log_prob_contained_bin.1 [5, 7, 9] [1, 2, 3] 1 0 (by simp)
      (by norm_num [List.pairwise_cons]) (by simp)
      (by norm_num [compute_edges]) (by norm_num [compute_edges])⟩

/-- C6: for num_bins ≥ 1, the edges have length num_bins + 1, first entry
-1e10, last entry +1e10, and interior entry i the midpoint of centers i-1
and i. -/
theorem c6_edges_shape_values :
    ∀ bin_centers : List ℝ, 1 ≤ bin_centers.length →
      (compute_edges bin_centers).length = bin_centers.length + 1 ∧
      (compute_edges bin_centers).getD 0 0 = -1.0e10 ∧
      (compute_edges bin_centers).getD bin_centers.length 0 = 1.0e10 ∧
      ∀ i, 1 ≤ i → i < bin_centers.length →
        (compute_edges bin_centers).getD i 0
          = (bin_centers.getD (i - 1) 0 + bin_centers.getD i 0) / 2 :=
  fun cs h =>
    ⟨compute_edges_length cs h, compute_edges_getD_zero cs h,
      compute_edges_getD_last cs h, fun i h1 h2 => compute_edges_getD_mid cs i h1 h2⟩

theorem c6_edges_shape_values_witness :
    (1 ≤ [(1 : ℝ), 2, 3].length) ∧
      ((compute_edges [1, 2, 3]).length = [(1 : ℝ), 2, 3].length + 1 ∧
        (compute_edges [1, 2, 3]).getD 0 0 = -1.0e10 ∧
        (compute_edges [1, 2, 3]).getD [(1 : ℝ), 2, 3].length 0 = 1.0e10 ∧
        ∀ i, 1 ≤ i → i < [(1 : ℝ), 2, 3].length →
          (compute_edges [1, 2, 3]).getD i 0
            = ([(1 : ℝ), 2, 3].getD (i - 1) 0 + [(1 : ℝ), 2, 3].getD i 0) / 2) :=
  ⟨by simp, c6_edges_shape_values [1, 2, 3] (by simp)⟩

/-- C7 (amended): mean is the probability-weighted sum of centers and stddev
is the square root of the plug-in second moment minus the squared mean, with
no clamping of the radicand; for centers [1,2,3] and probabilities
[0.2,0.3,0.5] the mean is 2.3 and the stddev is sqrt(0.61). -/
theorem c7_moments :
    (∀ bin_log_probs bin_centers : List ℝ,
        mean bin_log_probs bin_centers
          = (((bin_probs bin_log_probs).zip bin_centers).map
              (fun q => q.1 * q.2)).sum) ∧
    (∀ bin_log_probs bin_centers : List ℝ,
        stddev bin_log_probs bin_centers
          = Real.sqrt
              ((((bin_probs bin_log_probs).zip
                  (bin_centers.map (fun c => c ^ 2))).map
                    (fun q => q.1 * q.2)).sum
                - (mean bin_log_probs bin_centers) ^ 2)) ∧
    mean example_log_probs [1, 2, 3] = 23 / 10 ∧
    stddev example_log_probs [1, 2, 3] = Real.sqrt (61 / 100) :=
  ⟨fun lp cs => by rw [mean, zipWith_mul_eq_zip_map],
   fun lp cs => by rw [stddev, zipWith_mul_eq_zip_map],
   example_mean, example_stddev⟩

/-- C7 counterexample: the claimed concrete stddev sqrt(0.21) is wrong; the
code's stddev for the example is sqrt(0.61), and the two differ. -/
theorem c7_stddev_counterexample :
    stddev example_log_probs [1, 2, 3] ≠ Real.sqrt (21 / 100) := by
  rw [example_stddev]
  intro h
  have h2 := (Real.sqrt_inj (by norm_num) (by norm_num)).mp h
  norm_num at h2

/-- C8: the cdf is non-decreasing in its argument, because every bin
probability exp(bin_log_probs[i]) is non-negative. -/
theorem c8_cdf_monotone :
    ∀ (bin_log_probs bin_centers : List ℝ) (x1 x2 : ℝ), x1 ≤ x2 →
      cdf bin_log_probs bin_centers x1 ≤ cdf bin_log_probs bin_centers x2 := by
  intro bin_log_probs bin_centers x1 x2 h
  rw [cdf, cdf]
  exact sum_ind_mono x1 x2 h (bin_probs bin_log_probs) bin_centers
    (bin_probs_nonneg bin_log_probs)

theorem c8_cdf_monotone_witness :
    ((0 : ℝ) ≤ 1) ∧ cdf [0] [1] 0 ≤ cdf [0] [1] 1 :=
  ⟨by norm_num, c8_cdf_monotone [0] [1] 0 1 (by norm_num)⟩

/-- C9: the first bin_probs access computes exp(bin_log_probs), stores it in
the cache, and leaves the constructor fields untouched; a second access
returns the identical cached value and the identical state (so exp is
computed at most once). -/
theorem c9_bin_probs_cache :
    ∀ bin_log_probs bin_centers : List ℝ,
      ((State.init bin_log_probs bin_centers).bin_probs_access).1
          = bin_log_probs.map Real.exp ∧
      ((State.init bin_log_probs bin_centers).bin_probs_access).2.cached_bin_probs
          = some (bin_log_probs.map Real.exp) ∧
      ((State.init bin_log_probs bin_centers).bin_probs_access).2.bin_log_probs
          = bin_log_probs ∧
      ((State.init bin_log_probs bin_centers).bin_probs_access).2.bin_centers
          = bin_centers ∧
      (((State.init bin_log_probs bin_centers).bin_probs_access).2.bin_probs_access)
          = (bin_log_probs.map Real.exp,
             ((State.init bin_log_probs bin_centers).bin_probs_access).2) :=
  fun _ _ => ⟨rfl, rfl, rfl, rfl, rfl⟩

end Binned

namespace BinnedOutput

/-- C10: the Binned constructed by BinnedOutput.distribution receives the
probability tensor unchanged, and centers equal to the stored rank-1 centers
broadcast to the probability tensor's shape, multiplied by scale (when given)
and then shifted by loc (when given) — scale before loc. -/
theorem c10_distribution_scale_then_loc :
    ∀ (bin_centers : List ℝ) (probs : List (List ℝ))
      (loc scale : Option (List ℝ)) (B n : ℕ),
      Binned.IsMat probs B n → bin_centers.length = n →
      (∀ lb, loc = some lb → lb.length = B) →
      (∀ sb, scale = some sb → sb.length = B) →
      (distribution (probs, args_centers bin_centers probs) loc scale).1 = probs ∧
      Binned.IsMat
        (distribution (probs, args_centers bin_centers probs) loc scale).2 B n ∧
      ∀ b j, b < B → j < n →
        (((distribution (probs, args_centers bin_centers probs) loc scale).2.getD
            b []).getD j 0)
          = bin_centers.getD j 0 * scale.elim 1 (fun sb => sb.getD b 0)
            + loc.elim 0 (fun lb => lb.getD b 0) := by
  intro cs probs loc scale B n hp hc hloc hscale
  have h0 := args_centers_spec cs probs hp hc
  have h1 := ones_mul_spec h0.1 hp
  have h1e : ∀ b j, b < B → j < n →
      ((List.zipWith
          (fun crow prow => List.zipWith (· * ·) crow (prow.map fun _ => (1 : ℝ)))
          (args_centers cs probs) probs).getD b []).getD j 0 = cs.getD j 0 :=
    fun b j hb hj => (h1.2 b j hb hj).trans (h0.2 b j hb hj)
  have h2 : Binned.IsMat (scale_centers scale
        (List.zipWith
          (fun crow prow => List.zipWith (· * ·) crow (prow.map fun _ => (1 : ℝ)))
          (args_centers cs probs) probs)) B n ∧
      ∀ b j, b < B → j < n →
        ((scale_centers scale
            (List.zipWith
              (fun crow prow => List.zipWith (· * ·) crow (prow.map fun _ => (1 : ℝ)))
              (args_centers cs probs) probs)).getD b []).getD j 0
          = cs.getD j 0 * scale.elim 1 (fun sb => sb.getD b 0) := by
    cases scale with
    | none =>
      exact ⟨h1.1, fun b j hb hj => (h1e b j hb hj).trans (mul_one _).symm⟩
    | some sb =>
      have hsb := hscale sb rfl
      have hcomb := rows_comb_spec (fun c x => c * x) h1.1 hsb
      exact ⟨hcomb.1, fun b j hb hj => by
        have := (hcomb.2 b j hb hj)
        rw [h1e b j hb hj] at this
        exact this⟩
  have h3 : Binned.IsMat (loc_centers loc (scale_centers scale
        (List.zipWith
          (fun crow prow => List.zipWith (· * ·) crow (prow.map fun _ => (1 : ℝ)))
          (args_centers cs probs) probs))) B n ∧
      ∀ b j, b < B → j < n →
        ((loc_centers loc (scale_centers scale
            (List.zipWith
              (fun crow prow => List.zipWith (· * ·) crow (prow.map fun _ => (1 : ℝ)))
              (args_centers cs probs) probs))).getD b []).getD j 0
          = cs.getD j 0 * scale.elim 1 (fun sb => sb.getD b 0)
            + loc.elim 0 (fun lb => lb.getD b 0) := by
    cases loc with
    | none =>
      exact ⟨h2.1, fun b j hb hj => (h2.2 b j hb hj).trans (add_zero _).symm⟩
    | some lb =>
      have hlb := hloc lb rfl
      have hcomb := rows_comb_spec (fun c x => c + x) h2.1 hlb
      exact ⟨hcomb.1, fun b j hb hj => by
        have := (hcomb.2 b j hb hj)
        rw [h2.2 b j hb hj] at this
        exact this⟩
  exact ⟨rfl, h3.1, h3.2⟩

theorem c10_distribution_scale_then_loc_witness :
    Binned.IsMat [[(2 : ℝ)]] 1 1 ∧
      ∀ b j, b < 1 → j < 1 →
        (((distribution ([[(2 : ℝ)]], args_centers [10] [[(2 : ℝ)]])
            (some [4]) (some [3])).2.getD b []).getD j 0)
          = [(10 : ℝ)].getD j 0 * (some [(3 : ℝ)]).elim 1 (fun sb => sb.getD b 0)
            + (some [(4 : ℝ)]).elim 0 (fun lb => lb.getD b 0) := by
  have hp : Binned.IsMat [[(2 : ℝ)]] 1 1 := by
    refine ⟨by simp, fun i hi => ?_⟩
    interval_cases i
    simp
  exact ⟨hp, (c10_distribution_scale_then_loc [10] [[(2 : ℝ)]]
    (some [4]) (some [3]) 1 1 hp (by simp)
    (fun lb hlb => by injection hlb with h; rw [← h]; simp)
    (fun sb hsb => by injection hsb with h; rw [← h]; simp)).2.2⟩

end BinnedOutput

end
